import Mathlib

/-!
Verification of the uPool task-queue core (`src/upool.c`, `src/upool.h`).

The C code is shallowly embedded: the node chain lives in an explicit heap
(an association list from addresses to nodes), pointers are addresses,
`malloc`/lock/unlock outcomes are boolean oracles passed to each operation,
and undefined behaviour (dereferencing an address that is not in the heap)
is modelled as `none`.
-/

namespace UPool

/-- `up_task_t`: a routine pointer and an argument pointer, both modelled
as addresses. -/
structure up_task where
  task_routine : Nat
  arg : Nat
  deriving DecidableEq, Repr

/-- The all-zero task produced by `calloc` / `memset`. -/
def zeroTask : up_task := ⟨0, 0⟩

/-- `up_node_t`: a task plus the address of the next node (`NULL` = `none`). -/
structure up_node where
  task : up_task
  next : Option Nat
  deriving DecidableEq, Repr

/-- The heap of allocated nodes: an association list address ↦ node. -/
abbrev Heap := List (Nat × up_node)

/-- Dereference an address (first match). -/
def hlookup : Heap → Nat → Option up_node
  | [], _ => none
  | (b, n) :: t, a => if a = b then some n else hlookup t a

/-- `p->next = nx` on the node at address `a` (first match). -/
def hsetNext : Heap → Nat → Option Nat → Heap
  | [], _, _ => []
  | (b, n) :: t, a, nx =>
    if a = b then (b, { n with next := nx }) :: t else (b, n) :: hsetNext t a nx

/-- `memset(&p->task, 0, ...)`-style task overwrite at address `a`. -/
def hsetTask : Heap → Nat → up_task → Heap
  | [], _, _ => []
  | (b, n) :: t, a, tk =>
    if a = b then (b, { n with task := tk }) :: t else (b, n) :: hsetTask t a tk

/-- `free` the node at address `a` (first match). -/
def hremove : Heap → Nat → Heap
  | [], _ => []
  | (b, n) :: t, a => if a = b then t else (b, n) :: hremove t a

/-- The set of currently allocated addresses. -/
def hkeys (h : Heap) : List Nat := h.map Prod.fst

/-- `struct up_pool`, with the two counters, the queue pointers and a
monotone allocator counter (`malloc` always returns a fresh address). -/
structure up_pool where
  thread_count : Nat
  enq_count : Nat
  deq_count : Nat
  heap : Heap
  head : Nat
  tail : Nat
  nextAddr : Nat
  deriving DecidableEq, Repr

/-- The return codes used by `upool.c`. -/
inductive UpStatus where
  | UP_SUCCESS
  | UP_ERROR_MALLOC
  | UP_ERROR_MUTEX_LOCK
  | UP_ERROR_THREAD_CREATE
  | UP_ERROR_THREAD_JOIN
  | UP_ERROR_COND_DESTROY
  | UP_ERROR_MUTEX_DESTROY
  | UP_ERROR_CONF_INVAL
  deriving DecidableEq, Repr

open UpStatus

/-- Result of `up_pool_enq`: return code, pool state after the call, and
whether `pthread_cond_signal` was executed. -/
structure EnqResult where
  retv : UpStatus
  pool : up_pool
  signaled : Bool
  deriving DecidableEq, Repr

/-- `up_pool_enq` (upool.c:65–97).  `allocOk`, `lockOk`, `unlockOk` inject
the outcomes of `malloc`, `pthread_mutex_lock` and `pthread_mutex_unlock`.
`none` models the undefined dereference `pool->tail->next` when `tail`
dangles. -/
def up_pool_enq (pool : up_pool) (task : up_task)
    (allocOk lockOk unlockOk : Bool) : Option EnqResult :=
  if ¬ allocOk then
    some ⟨UP_ERROR_MALLOC, pool, false⟩
  else if ¬ lockOk then
    -- the freshly allocated node is freed before returning
    some ⟨UP_ERROR_MUTEX_LOCK, pool, false⟩
  else
    match hlookup pool.heap pool.tail with
    | none => none
    | some _ =>
      let a := pool.nextAddr
      let pool1 : up_pool :=
        { pool with
          heap := (a, ⟨task, none⟩) :: hsetNext pool.heap pool.tail (some a)
          tail := a
          enq_count := pool.enq_count + 1
          nextAddr := a + 1 }
      if ¬ unlockOk then
        -- unlock failed: the node stays linked, the signal is skipped
        some ⟨UP_ERROR_MUTEX_LOCK, pool1, false⟩
      else
        some ⟨UP_SUCCESS, pool1, true⟩

/-- Outcome of `up_pool_deq`: a lock failure, blocking on the condition
variable (queue empty), or success with the dequeued task. -/
inductive DeqOutcome where
  | failed (retv : UpStatus) (pool : up_pool)
  | blocked (pool : up_pool)
  | ok (pool : up_pool) (task : up_task)
  deriving DecidableEq, Repr

/-- The pool state carried by a `DeqOutcome`. -/
def DeqOutcome.pool : DeqOutcome → up_pool
  | .failed _ p => p
  | .blocked p => p
  | .ok p _ => p

/-- `up_pool_deq` (upool.c:104–141).  `blocked` models reaching
`pthread_cond_wait` with `head->next == NULL` (deq_count already
incremented).  On an unlock failure the function returns before
`free(old_head)`, so the retired node stays in the heap. -/
def up_pool_deq (pool : up_pool) (lockOk unlockOk : Bool) : Option DeqOutcome :=
  if ¬ lockOk then
    some (.failed UP_ERROR_MUTEX_LOCK pool)
  else
    let p1 : up_pool := { pool with deq_count := pool.deq_count + 1 }
    match hlookup p1.heap p1.head with
    | none => none
    | some hd =>
      match hd.next with
      | none => some (.blocked p1)
      | some s =>
        match hlookup p1.heap s with
        | none => none
        | some sn =>
          let p2 : up_pool :=
            { p1 with head := s, heap := hsetTask p1.heap s zeroTask }
          if ¬ unlockOk then
            some (.failed UP_ERROR_MUTEX_LOCK p2)
          else
            some (.ok { p2 with heap := hremove p2.heap p1.head } sn.task)

/-- `up_pool_submit` (upool.c:327–338): builds the task value and forwards
to `up_pool_enq`, propagating its return code unchanged. -/
def up_pool_submit (pool : up_pool) (task_routine arg : Nat)
    (allocOk lockOk unlockOk : Bool) : Option EnqResult :=
  up_pool_enq pool ⟨task_routine, arg⟩ allocOk lockOk unlockOk

/-- A spin loop that repeatedly reads a counter (each element of `obs` is
one read, taken under the consume lock) and exits at the first read equal
to `target`.  `false` means the loop has not exited on this trace. -/
def spin_until (target : Nat) : List Nat → Bool
  | [] => false
  | d :: rest => if target = d then true else spin_until target rest

/-- The pool state a successful `up_pool_create n` returns: both counters
zero, a single zeroed sentinel node (the `calloc` at upool.c:240) at
address 0 with `head` and `tail` pointing at it. -/
def initPool (n : Nat) : up_pool :=
  { thread_count := n, enq_count := 0, deq_count := 0
    heap := [(0, ⟨zeroTask, none⟩)], head := 0, tail := 0, nextAddr := 1 }

/-- `up_pool_create` (upool.c:208–271).  The boolean oracles inject the
outcomes of the two `malloc`s, the `calloc` of the sentinel, and
`pthread_create`.  `obs` is the sequence of `deq_count` values the
bring-up do/while loop reads under the consume lock (each spawned worker
increments `deq_count` once on its first `up_pool_deq` before blocking);
the loop's own mutex operations are modelled as succeeding.  `none`
models a loop that never observes `deq_count == n` and spins forever.
On success `deq_count` is explicitly reset to 0 (line 268) and
`enq_count` is 0 from initialization (line 227). -/
def up_pool_create (n : Nat)
    (poolAllocOk threadsAllocOk headAllocOk threadCreateOk : Bool)
    (obs : List Nat) : Option (UpStatus ⊕ up_pool) :=
  if n < 1 then some (Sum.inl UP_ERROR_CONF_INVAL)
  else if ¬ poolAllocOk then some (Sum.inl UP_ERROR_MALLOC)
  else if ¬ threadsAllocOk then some (Sum.inl UP_ERROR_MALLOC)
  else if ¬ headAllocOk then some (Sum.inl UP_ERROR_MALLOC)
  else if ¬ threadCreateOk then some (Sum.inl UP_ERROR_THREAD_CREATE)
  else if spin_until n obs then some (Sum.inr (initPool n))
  else none

/-- Walk the `next` chain from an address, collecting the addresses the
teardown loop (upool.c:315–319) would free.  Fuel bounds the walk; running
out of fuel (a cycle) or a dangling pointer is undefined behaviour. -/
def chain_walk (h : Heap) : Option Nat → Nat → Option (List Nat)
  | none, _ => some []
  | some _, 0 => none
  | some a, fuel + 1 =>
    match hlookup h a with
    | none => none
    | some n => (chain_walk h n.next fuel).map (a :: ·)

/-- What `up_pool_destroy` released before returning. -/
structure DestroyResult where
  retv : UpStatus
  freedThreads : Bool
  condDestroyed : Bool
  enqLockDestroyed : Bool
  deqLockDestroyed : Bool
  freedNodes : List Nat
  freedPool : Bool
  deriving DecidableEq, Repr

/-- `up_pool_destroy` (upool.c:278–324).  `joinOks i` is the outcome of
`pthread_join` on thread `i` (`pthread_cancel` failures are only logged
and change no state); `condOk`, `enqOk`, `deqOk` inject the outcomes of
destroying the condition variable and the two mutexes.  A join failure
returns before anything is released. -/
def up_pool_destroy (pool : up_pool) (joinOks : Nat → Bool)
    (condOk enqOk deqOk : Bool) : Option DestroyResult :=
  if ¬ (List.range pool.thread_count).all joinOks then
    some ⟨UP_ERROR_THREAD_JOIN, false, false, false, false, [], false⟩
  else if ¬ condOk then
    some ⟨UP_ERROR_COND_DESTROY, true, false, false, false, [], false⟩
  else if ¬ enqOk then
    some ⟨UP_ERROR_MUTEX_DESTROY, true, true, false, false, [], false⟩
  else if ¬ deqOk then
    some ⟨UP_ERROR_MUTEX_DESTROY, true, true, true, false, [], false⟩
  else
    match chain_walk pool.heap (some pool.head) (pool.heap.length + 1) with
    | none => none
    | some addrs => some ⟨UP_SUCCESS, true, true, true, true, addrs, true⟩

/-- `size_t` modulus. -/
def SIZE_MOD : Nat := 2 ^ 64

/-- The C expression `enq_count - deq_count` at `size_t` width. -/
def size_sub (a b : Nat) : Nat :=
  (a % SIZE_MOD + (SIZE_MOD - b % SIZE_MOD)) % SIZE_MOD

/-- Result of `up_pool_queue_size`: return code, pool afterwards, the
value written through the out-parameter (if the write was reached), the
lock state (append held, consume held) at the moment of that write, and
the lock state on return. -/
structure QSResult where
  retv : UpStatus
  pool : up_pool
  size : Option Nat
  readState : Option (Bool × Bool)
  enqHeldAtReturn : Bool
  deqHeldAtReturn : Bool
  deriving DecidableEq, Repr

/-- `up_pool_queue_size` (upool.c:341–368): lock append, lock consume,
write `enq_count - deq_count` through the out-parameter, unlock append,
unlock consume.  The four oracles inject the lock/unlock outcomes. -/
def up_pool_queue_size (pool : up_pool)
    (lockEnqOk lockDeqOk unlockEnqOk unlockDeqOk : Bool) : QSResult :=
  if ¬ lockEnqOk then
    ⟨UP_ERROR_MUTEX_LOCK, pool, none, none, false, false⟩
  else if ¬ lockDeqOk then
    ⟨UP_ERROR_MUTEX_LOCK, pool, none, none, true, false⟩
  else
    let sz := size_sub pool.enq_count pool.deq_count
    if ¬ unlockEnqOk then
      ⟨UP_ERROR_MUTEX_LOCK, pool, some sz, some (true, true), true, true⟩
    else if ¬ unlockDeqOk then
      ⟨UP_ERROR_MUTEX_LOCK, pool, some sz, some (true, true), false, true⟩
    else
      ⟨UP_SUCCESS, pool, some sz, some (true, true), false, false⟩

/-- Pool state plus which of the two locks the caller holds. -/
structure WaitResult where
  pool : up_pool
  enqLockHeld : Bool
  deqLockHeld : Bool
  deriving DecidableEq, Repr

/-- Modelled from the spec: `up_pool_wait` is declared in `upool.h` (line
57) and called by the tests and examples, but its body is not among the
sources.  Spec §4.5: acquire the append lock, then spin
acquiring/releasing the consume lock until
`threadCount + submitted == consumed`; on success reset `submitted` to 0
and `consumed` to `threadCount` and return holding both locks.  `obs` is
the sequence of `deq_count` values read under the consume lock
(`enq_count` is frozen while the append lock is held); `none` models a
spin that never sees the counters match. -/
def up_pool_wait (pool : up_pool) (obs : List Nat) : Option WaitResult :=
  if spin_until (pool.thread_count + pool.enq_count) obs then
    some ⟨{ pool with enq_count := 0, deq_count := pool.thread_count }, true, true⟩
  else none

/-- Modelled from the spec: `up_pool_release` is declared in `upool.h`
(line 58) but its body is not among the sources.  Spec §4.5: "release
(pool) unlocks both locks." -/
def up_pool_release (r : WaitResult) : WaitResult :=
  { r with enqLockHeld := false, deqLockHeld := false }

/-! ### The worker loop (`up_pool_worker`, upool.c:167–202)

The worker is modelled as a state machine at the granularity of its
cancellation points: `atDeq` is the whole `up_pool_deq` call (whose
`pthread_cond_wait` is the only cancellation point of the loop), `atRun`
is the invocation of the task routine after
`pthread_setcancelstate(PTHREAD_CANCEL_DISABLE)` (line 185), and
`stopped` is thread termination. -/

/-- Worker program counter. -/
inductive WPC where
  | atDeq
  | atRun (t : up_task)
  | stopped
  deriving DecidableEq, Repr

/-- A worker: where it is in the loop and whether its cancel state is
`PTHREAD_CANCEL_ENABLE`. -/
structure WorkerState where
  pc : WPC
  cancelEnabled : Bool
  deriving DecidableEq, Repr

/-- Events of one worker step. -/
inductive WEv where
  | deqOk (t : up_task)
  | deqOkDisableFail (t : up_task)
  | deqFail
  | run
  | enableFail
  | cancel
  deriving DecidableEq, Repr

/-- One step of the worker loop.  `deqOk` covers lines 177–190: the
dequeue returns a task and `pthread_setcancelstate(PTHREAD_CANCEL_DISABLE)`
succeeds before the routine is invoked.  `deqOkDisableFail` is the same
path when the disable call fails (lines 186–188): the failure is only
logged with `perror` and the worker proceeds to run the routine with its
cancel state unchanged (normally still enabled).  `deqFail` is the
`pthread_exit` on a dequeue error (lines 178–181).  `run` is the routine
running to completion followed by re-enabling cancellation (lines
190–192); `enableFail` is the `pthread_exit` when re-enabling fails
(lines 193–196).  `cancel` is an external cancellation request taking
effect at a cancellation point: either the `pthread_cond_wait` inside
the dequeue (`cancel_at_wait`), or — when the cancel state is still
enabled while the routine runs, possible after a failed disable — any
cancellation point inside the caller-supplied routine
(`cancel_in_run`). -/
inductive wstep : WorkerState → WEv → WorkerState → Prop where
  | deq_ok : ∀ (c : Bool) (t : up_task),
      wstep ⟨.atDeq, c⟩ (.deqOk t) ⟨.atRun t, false⟩
  | deq_ok_disable_fail : ∀ (c : Bool) (t : up_task),
      wstep ⟨.atDeq, c⟩ (.deqOkDisableFail t) ⟨.atRun t, c⟩
  | deq_fail : ∀ (c : Bool), wstep ⟨.atDeq, c⟩ .deqFail ⟨.stopped, c⟩
  | run_done : ∀ (c : Bool) (t : up_task),
      wstep ⟨.atRun t, c⟩ .run ⟨.atDeq, true⟩
  | run_enable_fail : ∀ (c : Bool) (t : up_task),
      wstep ⟨.atRun t, c⟩ .enableFail ⟨.stopped, c⟩
  | cancel_at_wait : wstep ⟨.atDeq, true⟩ .cancel ⟨.stopped, true⟩
  | cancel_in_run : ∀ (t : up_task),
      wstep ⟨.atRun t, true⟩ .cancel ⟨.stopped, true⟩

/-- The worker starts at the top of the loop with cancellation enabled. -/
def workerInit : WorkerState := ⟨.atDeq, true⟩

/-- Reachability in the worker machine. -/
def wreach : WorkerState → WorkerState → Prop :=
  Relation.ReflTransGen (fun s s' => ∃ e, wstep s e s')

/-- Reachability along traces on which every
`pthread_setcancelstate(PTHREAD_CANCEL_DISABLE)` call succeeded (no
`deqOkDisableFail` event). -/
def wreach_no_disable_fail : WorkerState → WorkerState → Prop :=
  Relation.ReflTransGen
    (fun s s' => ∃ e, wstep s e s' ∧ ∀ t, e ≠ WEv.deqOkDisableFail t)

/-! ### Heap lemmas -/

@[simp] theorem hkeys_nil : hkeys ([] : Heap) = [] := rfl

@[simp] theorem hkeys_cons (e : Nat × up_node) (t : Heap) :
    hkeys (e :: t) = e.1 :: hkeys t := rfl

theorem hkeys_hsetNext (h : Heap) (a : Nat) (nx : Option Nat) :
    hkeys (hsetNext h a nx) = hkeys h := by
  induction h with
  | nil => rfl
  | cons e t ih =>
    obtain ⟨b, n⟩ := e
    by_cases hab : a = b <;> simp [hsetNext, hab, ih]

theorem hkeys_hsetTask (h : Heap) (a : Nat) (tk : up_task) :
    hkeys (hsetTask h a tk) = hkeys h := by
  induction h with
  | nil => rfl
  | cons e t ih =>
    obtain ⟨b, n⟩ := e
    by_cases hab : a = b <;> simp [hsetTask, hab, ih]

theorem hkeys_hremove (h : Heap) (a : Nat) :
    hkeys (hremove h a) = (hkeys h).erase a := by
  induction h with
  | nil => rfl
  | cons e t ih =>
    obtain ⟨b, n⟩ := e
    by_cases hab : a = b
    · subst hab; simp [hremove, List.erase_cons_head]
    · simp [hremove, hab, ih, List.erase_cons_tail, Ne.symm hab]

theorem hlookup_mem {h : Heap} {a : Nat} {n : up_node}
    (hl : hlookup h a = some n) : a ∈ hkeys h := by
  induction h with
  | nil => simp [hlookup] at hl
  | cons e t ih =>
    obtain ⟨b, m⟩ := e
    by_cases hab : a = b
    · simp [hab]
    · simp only [hlookup, if_neg hab] at hl
      simp only [hkeys_cons, List.mem_cons]
      exact Or.inr (ih hl)

theorem mem_hlookup {h : Heap} {a : Nat} (ha : a ∈ hkeys h) :
    ∃ n, hlookup h a = some n := by
  induction h with
  | nil => simp at ha
  | cons e t ih =>
    obtain ⟨b, m⟩ := e
    by_cases hab : a = b
    · exact ⟨m, by simp [hlookup, hab]⟩
    · simp only [hkeys_cons, List.mem_cons] at ha
      rcases ha with ha | ha
      · exact absurd ha hab
      · obtain ⟨n, hn⟩ := ih ha
        exact ⟨n, by simp [hlookup, hab, hn]⟩

theorem hlookup_not_mem {h : Heap} {a : Nat} (ha : a ∉ hkeys h) :
    hlookup h a = none := by
  cases hl : hlookup h a with
  | none => rfl
  | some n => exact absurd (hlookup_mem hl) ha

theorem hlookup_hsetNext_self {h : Heap} {a : Nat} {n : up_node}
    (hl : hlookup h a = some n) (nx : Option Nat) :
    hlookup (hsetNext h a nx) a = some { n with next := nx } := by
  induction h with
  | nil => simp [hlookup] at hl
  | cons e t ih =>
    obtain ⟨b, m⟩ := e
    by_cases hab : a = b
    · simp only [hlookup, if_pos hab] at hl
      cases hl
      simp [hsetNext, hab, hlookup]
    · simp only [hlookup, if_neg hab] at hl
      simp [hsetNext, hab, hlookup, ih hl]

theorem hlookup_hsetNext_ne {h : Heap} {a b : Nat} (hba : b ≠ a)
    (nx : Option Nat) : hlookup (hsetNext h a nx) b = hlookup h b := by
  induction h with
  | nil => rfl
  | cons e t ih =>
    obtain ⟨c, m⟩ := e
    by_cases hac : a = c
    · subst hac
      simp [hsetNext, hlookup, hba, ih]
    · by_cases hbc : b = c <;> simp [hsetNext, hlookup, hac, hbc, ih]

theorem hlookup_hsetTask_self {h : Heap} {a : Nat} {n : up_node}
    (hl : hlookup h a = some n) (tk : up_task) :
    hlookup (hsetTask h a tk) a = some { n with task := tk } := by
  induction h with
  | nil => simp [hlookup] at hl
  | cons e t ih =>
    obtain ⟨b, m⟩ := e
    by_cases hab : a = b
    · simp only [hlookup, if_pos hab] at hl
      cases hl
      simp [hsetTask, hab, hlookup]
    · simp only [hlookup, if_neg hab] at hl
      simp [hsetTask, hab, hlookup, ih hl]

theorem hlookup_hsetTask_ne {h : Heap} {a b : Nat} (hba : b ≠ a)
    (tk : up_task) : hlookup (hsetTask h a tk) b = hlookup h b := by
  induction h with
  | nil => rfl
  | cons e t ih =>
    obtain ⟨c, m⟩ := e
    by_cases hac : a = c
    · subst hac
      simp [hsetTask, hlookup, hba, ih]
    · by_cases hbc : b = c <;> simp [hsetTask, hlookup, hac, hbc, ih]

theorem hlookup_hremove_ne {h : Heap} {a b : Nat} (hba : b ≠ a) :
    hlookup (hremove h a) b = hlookup h b := by
  induction h with
  | nil => rfl
  | cons e t ih =>
    obtain ⟨c, m⟩ := e
    by_cases hac : a = c
    · subst hac
      simp [hremove, hlookup, hba]
    · by_cases hbc : b = c <;> simp [hremove, hlookup, hac, hbc, ih]

theorem hlookup_hremove_self {h : Heap} (hnd : (hkeys h).Nodup) (a : Nat) :
    hlookup (hremove h a) a = none := by
  induction h with
  | nil => rfl
  | cons e t ih =>
    obtain ⟨b, m⟩ := e
    simp only [hkeys_cons, List.nodup_cons] at hnd
    by_cases hab : a = b
    · subst hab
      simp only [hremove, if_pos rfl]
      exact hlookup_not_mem hnd.1
    · simp [hremove, hab, hlookup, ih hnd.2]

/-- `hsetNext` never changes any node's task. -/
theorem hsetNext_task_map (h : Heap) (a : Nat) (nx : Option Nat) (b : Nat) :
    (hlookup (hsetNext h a nx) b).map up_node.task
      = (hlookup h b).map up_node.task := by
  by_cases hba : b = a
  · cases hl : hlookup h b with
    | none =>
      have h2 : hlookup (hsetNext h a nx) b = none := by
        apply hlookup_not_mem
        rw [hkeys_hsetNext]
        intro hm
        obtain ⟨n, hn⟩ := mem_hlookup hm
        rw [hn] at hl
        cases hl
      simp [h2, hl]
    | some n =>
      rw [hba] at hl ⊢
      simp [hlookup_hsetNext_self hl, hl]
  · rw [hlookup_hsetNext_ne hba]

/-- `hsetTask` never changes any node's successor. -/
theorem hsetTask_next_map (h : Heap) (a : Nat) (tk : up_task) (b : Nat) :
    (hlookup (hsetTask h a tk) b).map up_node.next
      = (hlookup h b).map up_node.next := by
  by_cases hba : b = a
  · cases hl : hlookup h b with
    | none =>
      have h2 : hlookup (hsetTask h a tk) b = none := by
        apply hlookup_not_mem
        rw [hkeys_hsetTask]
        intro hm
        obtain ⟨n, hn⟩ := mem_hlookup hm
        rw [hn] at hl
        cases hl
      simp [h2, hl]
    | some n =>
      rw [hba] at hl ⊢
      simp [hlookup_hsetTask_self hl, hl]
  · rw [hlookup_hsetTask_ne hba]

/-! ### The queue chain -/

/-- `Chain h a l`: starting at address `a` and following `next` pointers,
one visits exactly the addresses `l`, every visited address is allocated,
and the walk ends at a node whose `next` is `NULL`. -/
inductive Chain (h : Heap) : Nat → List Nat → Prop where
  | last : ∀ (a : Nat) (n : up_node),
      hlookup h a = some n → n.next = none → Chain h a [a]
  | cons : ∀ (a b : Nat) (n : up_node) (l : List Nat),
      hlookup h a = some n → n.next = some b → Chain h b l →
      Chain h a (a :: l)

theorem chain_ne_nil {h : Heap} {a : Nat} {l : List Nat}
    (hc : Chain h a l) : l ≠ [] := by
  cases hc <;> simp

theorem chain_head {h : Heap} {a : Nat} {l : List Nat}
    (hc : Chain h a l) : ∃ l', l = a :: l' := by
  cases hc with
  | last a n _ _ => exact ⟨[], rfl⟩
  | cons a b n l _ _ _ => exact ⟨l, rfl⟩

theorem chain_sub_keys {h : Heap} {a : Nat} {l : List Nat}
    (hc : Chain h a l) : ∀ x ∈ l, x ∈ hkeys h := by
  induction hc with
  | last a n hl _ =>
    intro x hx
    rw [List.mem_singleton] at hx
    exact hx ▸ hlookup_mem hl
  | cons a b n l hl _ _ ih =>
    intro x hx
    rcases List.mem_cons.mp hx with rfl | hx
    · exact hlookup_mem hl
    · exact ih x hx

theorem chain_step {h : Heap} {a : Nat} {l : List Nat} {n : up_node}
    {b : Nat} (hc : Chain h a l) (hl : hlookup h a = some n)
    (hn : n.next = some b) : ∃ l', l = a :: l' ∧ Chain h b l' := by
  cases hc with
  | last a m hl' hn' =>
    rw [hl] at hl'
    cases hl'
    rw [hn] at hn'
    cases hn'
  | cons a c m l' hl' hn' hcl =>
    rw [hl] at hl'
    cases hl'
    rw [hn] at hn'
    cases hn'
    exact ⟨l', rfl, hcl⟩

/-- A chain survives any heap change that preserves the successor of each
of its members. -/
theorem chain_preserved {h h' : Heap} {a : Nat} {l : List Nat}
    (hc : Chain h a l)
    (hp : ∀ x ∈ l, (hlookup h' x).map up_node.next
        = (hlookup h x).map up_node.next) :
    Chain h' a l := by
  induction hc with
  | last a n hl hn =>
    have h1 := hp a (by simp)
    rw [hl] at h1
    cases hl' : hlookup h' a with
    | none => rw [hl'] at h1; simp at h1
    | some m =>
      rw [hl'] at h1
      simp only [Option.map_some'] at h1
      have h2 : m.next = n.next := Option.some.inj h1
      exact Chain.last a m hl' (by rw [h2, hn])
  | cons a b n l hl hn hcl ih =>
    have h1 := hp a (by simp)
    rw [hl] at h1
    cases hl' : hlookup h' a with
    | none => rw [hl'] at h1; simp at h1
    | some m =>
      rw [hl'] at h1
      simp only [Option.map_some'] at h1
      have h2 : m.next = n.next := Option.some.inj h1
      refine Chain.cons a b m l hl' (by rw [h2, hn]) ?_
      exact ih fun x hx => hp x (List.mem_cons_of_mem _ hx)

/-- `a ∈ l.getLast?` style membership. -/
theorem mem_of_getLast_opt {l : List Nat} {a : Nat}
    (h : l.getLast? = some a) : a ∈ l := by
  obtain ⟨hne, rfl⟩ :=
    List.mem_getLast?_eq_getLast (l := l) (x := a) (by simp [h])
  exact List.getLast_mem hne

/-- Linking a fresh node `w` after the chain's last element extends the
chain by `w` (the heart of `up_pool_enq`, upool.c:84–85). -/
theorem chain_extend {h : Heap} {w tl : Nat} (hw : w ∉ hkeys h)
    (tk : up_task) :
    ∀ {hd : Nat} {l : List Nat}, Chain h hd l → l.getLast? = some tl →
      l.Nodup →
      Chain ((w, ⟨tk, none⟩) :: hsetNext h tl (some w)) hd (l ++ [w]) := by
  intro hd l hc
  induction hc with
  | last a n hl hn =>
    intro hlast hnd
    have ha : a = tl := by simpa using hlast
    subst ha
    have ha_ne_w : a ≠ w := fun he => hw (he ▸ hlookup_mem hl)
    have l1 : hlookup ((w, ⟨tk, none⟩) :: hsetNext h a (some w)) a
        = some { n with next := some w } := by
      simp only [hlookup, if_neg ha_ne_w]
      exact hlookup_hsetNext_self hl _
    have l2 : hlookup ((w, ⟨tk, none⟩) :: hsetNext h a (some w)) w
        = some ⟨tk, none⟩ := by
      simp [hlookup]
    exact Chain.cons a w _ [w] l1 rfl (Chain.last w _ l2 rfl)
  | cons a b n l hl hn hcl ih =>
    intro hlast hnd
    have hlne : l ≠ [] := chain_ne_nil hcl
    have hlast' : l.getLast? = some tl := by
      obtain ⟨c, t, rfl⟩ := List.exists_cons_of_ne_nil hlne
      rw [List.getLast?_cons_cons] at hlast
      exact hlast
    have hnd' : l.Nodup := (List.nodup_cons.mp hnd).2
    have ha_notin : a ∉ l := (List.nodup_cons.mp hnd).1
    have ha_ne_tl : a ≠ tl := fun he =>
      ha_notin (he ▸ mem_of_getLast_opt hlast')
    have ha_ne_w : a ≠ w := fun he => hw (he ▸ hlookup_mem hl)
    have l1 : hlookup ((w, ⟨tk, none⟩) :: hsetNext h tl (some w)) a
        = some n := by
      simp only [hlookup, if_neg ha_ne_w]
      rw [hlookup_hsetNext_ne ha_ne_tl]
      exact hl
    exact Chain.cons a b n (l ++ [w]) l1 hn (ih hlast' hnd')

/-! ### The pool invariant and its abstraction to a task list -/

/-- The structural queue invariant: the heap chain from `head` is a
non-cyclic singly-linked list whose last element is `tail` (so
`tail->next == NULL`), every allocated address is below the allocator
counter, addresses are unique, and the node `head` points at (sentinel or
retired node) has zeroed task fields. -/
def ChainInv (p : up_pool) (addrs : List Nat) : Prop :=
  Chain p.heap p.head addrs ∧
  addrs.getLast? = some p.tail ∧
  addrs.Nodup ∧
  (∀ a ∈ hkeys p.heap, a < p.nextAddr) ∧
  (hkeys p.heap).Nodup ∧
  (∃ n, hlookup p.heap p.head = some n ∧ n.task = zeroTask)

/-- The queue is well formed. -/
def Inv (p : up_pool) : Prop := ∃ addrs, ChainInv p addrs

/-- The tasks stored at a list of addresses. -/
def tasks_of (h : Heap) (l : List Nat) : List up_task :=
  l.filterMap fun a => (hlookup h a).map up_node.task

/-- `PoolAbs p q`: the pool is well formed, the heap contains exactly the
chain's nodes, and the tasks in the nodes after `head` are `q` in link
order. -/
def PoolAbs (p : up_pool) (q : List up_task) : Prop :=
  ∃ addrs, ChainInv p addrs ∧ (hkeys p.heap).Perm addrs ∧
    tasks_of p.heap addrs.tail = q

theorem tasks_of_congr {h h' : Heap} {l : List Nat}
    (hp : ∀ x ∈ l, (hlookup h' x).map up_node.task
        = (hlookup h x).map up_node.task) :
    tasks_of h' l = tasks_of h l :=
  List.filterMap_congr fun x hx => hp x hx

/-! ### Evaluation lemmas: which branch the operations take -/

/-- With a live `tail` and successful `malloc`/lock, `up_pool_enq` links
the node; the return value depends only on the unlock outcome. -/
theorem enq_eval {p : up_pool} {tn : up_node}
    (h1 : hlookup p.heap p.tail = some tn) (t : up_task) (uOk : Bool) :
    up_pool_enq p t true true uOk
      = some ⟨if uOk then UP_SUCCESS else UP_ERROR_MUTEX_LOCK,
          { p with
            heap := (p.nextAddr, ⟨t, none⟩)
              :: hsetNext p.heap p.tail (some p.nextAddr)
            tail := p.nextAddr
            enq_count := p.enq_count + 1
            nextAddr := p.nextAddr + 1 },
          uOk⟩ := by
  cases uOk <;> simp [up_pool_enq, h1]

/-- With a live non-empty queue and successful lock/unlock, `up_pool_deq`
dequeues the successor of `head`. -/
theorem deq_eval_ok {p : up_pool} {hd sn : up_node} {s : Nat}
    (h1 : hlookup p.heap p.head = some hd) (h2 : hd.next = some s)
    (h3 : hlookup p.heap s = some sn) :
    up_pool_deq p true true
      = some (.ok
          { p with
            deq_count := p.deq_count + 1
            head := s
            heap := hremove (hsetTask p.heap s zeroTask) p.head }
          sn.task) := by
  simp [up_pool_deq, h1, h2, h3]

/-! ### Invariant preservation -/

/-- Linking a fresh node after `tail` preserves the structural invariant
and appends the new address to the chain. -/
theorem chaininv_enq_link {p : up_pool} {addrs : List Nat}
    (hinv : ChainInv p addrs) (t : up_task) :
    ChainInv
      { p with
        heap := (p.nextAddr, ⟨t, none⟩)
          :: hsetNext p.heap p.tail (some p.nextAddr)
        tail := p.nextAddr
        enq_count := p.enq_count + 1
        nextAddr := p.nextAddr + 1 }
      (addrs ++ [p.nextAddr]) := by
  obtain ⟨hc, hlast, hnd, hfresh, hknd, n0, hl0, hz0⟩ := hinv
  have hw : p.nextAddr ∉ hkeys p.heap := fun hm => lt_irrefl _ (hfresh _ hm)
  have hsub := chain_sub_keys hc
  have hwa : p.nextAddr ∉ addrs := fun hm => hw (hsub _ hm)
  refine ⟨?_, ?_, ?_, ?_, ?_, ?_⟩
  · exact chain_extend hw t hc hlast hnd
  · simp [List.getLast?_concat]
  · exact List.Nodup.append hnd (List.nodup_singleton _)
      (List.disjoint_singleton.mpr hwa)
  · intro a ha
    simp only [hkeys_cons, hkeys_hsetNext, List.mem_cons] at ha
    rcases ha with rfl | ha
    · exact Nat.lt_succ_self _
    · exact Nat.lt_succ_of_lt (hfresh _ ha)
  · simp only [hkeys_cons, hkeys_hsetNext, List.nodup_cons]
    exact ⟨hw, hknd⟩
  · have hne : p.head ≠ p.nextAddr := fun he => hw (he ▸ hlookup_mem hl0)
    have hmap : (hlookup ((p.nextAddr, (⟨t, none⟩ : up_node))
          :: hsetNext p.heap p.tail (some p.nextAddr)) p.head).map up_node.task
        = (hlookup p.heap p.head).map up_node.task := by
      simp only [hlookup, if_neg hne]
      exact hsetNext_task_map p.heap p.tail (some p.nextAddr) p.head
    rw [hl0] at hmap
    cases hlk : hlookup ((p.nextAddr, (⟨t, none⟩ : up_node))
        :: hsetNext p.heap p.tail (some p.nextAddr)) p.head with
    | none => rw [hlk] at hmap; simp at hmap
    | some m =>
      rw [hlk] at hmap
      simp only [Option.map_some'] at hmap
      exact ⟨m, rfl, (Option.some.inj hmap).trans hz0⟩

/-- Advancing `head` to its successor, zeroing the new head's task and
(optionally) freeing the old head preserves the structural invariant,
shortening the chain by its first element. -/
theorem chaininv_deq_adv {p : up_pool} {addrs : List Nat} {hd : up_node}
    {s : Nat} (hinv : ChainInv p addrs)
    (hl : hlookup p.heap p.head = some hd) (hn : hd.next = some s) :
    ∃ l', addrs = p.head :: l' ∧
      ChainInv
        { p with
          deq_count := p.deq_count + 1
          head := s
          heap := hsetTask p.heap s zeroTask } l' ∧
      ChainInv
        { p with
          deq_count := p.deq_count + 1
          head := s
          heap := hremove (hsetTask p.heap s zeroTask) p.head } l' := by
  obtain ⟨hc, hlast, hnd, hfresh, hknd, n0, hl0, hz0⟩ := hinv
  obtain ⟨l', rfl, hcs⟩ := chain_step hc hl hn
  have hhd_notin : p.head ∉ l' := (List.nodup_cons.mp hnd).1
  have hnd' : l'.Nodup := (List.nodup_cons.mp hnd).2
  have hlne : l' ≠ [] := chain_ne_nil hcs
  obtain ⟨l'', rfl⟩ := chain_head hcs
  have hs_ne_hd : s ≠ p.head := fun he => hhd_notin (he ▸ List.mem_cons_self s l'')
  obtain ⟨sn, hsn⟩ := mem_hlookup (chain_sub_keys hcs s (List.mem_cons_self s l''))
  have hlast' : (s :: l'').getLast? = some p.tail := by
    rw [List.getLast?_cons_cons] at hlast
    exact hlast
  have hsz : hlookup (hsetTask p.heap s zeroTask) s
      = some { sn with task := zeroTask } := hlookup_hsetTask_self hsn _
  refine ⟨s :: l'', rfl, ?_, ?_⟩
  · refine ⟨?_, hlast', hnd', ?_, ?_, ?_⟩
    · exact chain_preserved hcs fun x _ => hsetTask_next_map p.heap s zeroTask x
    · intro a ha
      rw [hkeys_hsetTask] at ha
      exact hfresh a ha
    · rw [hkeys_hsetTask]; exact hknd
    · exact ⟨_, hsz, rfl⟩
  · have hknd2 : (hkeys (hsetTask p.heap s zeroTask)).Nodup := by
      rw [hkeys_hsetTask]; exact hknd
    refine ⟨?_, hlast', hnd', ?_, ?_, ?_⟩
    · refine chain_preserved hcs fun x hx => ?_
      have hx_ne : x ≠ p.head := fun he => hhd_notin (he ▸ hx)
      rw [hlookup_hremove_ne hx_ne]
      exact hsetTask_next_map p.heap s zeroTask x
    · intro a ha
      rw [hkeys_hremove, hkeys_hsetTask] at ha
      exact hfresh a (List.mem_of_mem_erase ha)
    · rw [hkeys_hremove]
      exact hknd2.erase _
    · refine ⟨{ sn with task := zeroTask }, ?_, rfl⟩
      rw [hlookup_hremove_ne hs_ne_hd]
      exact hsz

/-! ### Abstraction: enqueue appends, dequeue pops -/

/-- A successful `up_pool_enq` appends the task to the abstract queue. -/
theorem enq_ok_abs {p : up_pool} {q : List up_task} (h : PoolAbs p q)
    (t : up_task) :
    ∃ p', up_pool_enq p t true true true = some ⟨UP_SUCCESS, p', true⟩ ∧
      PoolAbs p' (q ++ [t]) := by
  obtain ⟨addrs, hinv, hperm, htasks⟩ := h
  have hinv0 := hinv
  obtain ⟨rest, rfl⟩ := chain_head hinv.1
  have htl_mem : p.tail ∈ p.head :: rest := mem_of_getLast_opt hinv.2.1
  have htl_keys : p.tail ∈ hkeys p.heap := chain_sub_keys hinv.1 _ htl_mem
  obtain ⟨tn, htn⟩ := mem_hlookup htl_keys
  have hw : p.nextAddr ∉ hkeys p.heap :=
    fun hm => lt_irrefl _ (hinv.2.2.2.1 _ hm)
  refine ⟨_, enq_eval htn t true, ?_⟩
  refine ⟨(p.head :: rest) ++ [p.nextAddr], chaininv_enq_link hinv0 t, ?_, ?_⟩
  · show (hkeys ((p.nextAddr, (⟨t, none⟩ : up_node))
        :: hsetNext p.heap p.tail (some p.nextAddr))).Perm _
    rw [hkeys_cons, hkeys_hsetNext]
    exact (hperm.cons p.nextAddr).trans
      (List.perm_append_singleton _ _).symm
  · show tasks_of _ ((p.head :: rest) ++ [p.nextAddr]).tail = q ++ [t]
    have htail : ((p.head :: rest) ++ [p.nextAddr]).tail
        = rest ++ [p.nextAddr] := by simp
    rw [htail]
    unfold tasks_of
    rw [List.filterMap_append]
    have h1 : tasks_of ((p.nextAddr, (⟨t, none⟩ : up_node))
          :: hsetNext p.heap p.tail (some p.nextAddr)) rest
        = tasks_of p.heap rest := by
      refine tasks_of_congr fun x hx => ?_
      have hxk : x ∈ hkeys p.heap :=
        chain_sub_keys hinv.1 x (List.mem_cons_of_mem _ hx)
      have hx_ne : x ≠ p.nextAddr := fun he => hw (he ▸ hxk)
      simp only [hlookup, if_neg hx_ne]
      exact hsetNext_task_map p.heap p.tail (some p.nextAddr) x
    have h2 : tasks_of ((p.nextAddr, (⟨t, none⟩ : up_node))
          :: hsetNext p.heap p.tail (some p.nextAddr)) [p.nextAddr]
        = [t] := by
      simp [tasks_of, hlookup]
    unfold tasks_of at h1 h2
    rw [h1, h2]
    have h3 : tasks_of p.heap rest = q := htasks
    unfold tasks_of at h3
    rw [h3]

/-- A successful `up_pool_deq` on a non-empty abstract queue pops and
returns its first task; the old head node is freed and the new head's
task fields are zeroed. -/
theorem deq_ok_abs {p : up_pool} {t : up_task} {q : List up_task}
    (h : PoolAbs p (t :: q)) :
    ∃ (hd sn : up_node) (s : Nat) (p' : up_pool),
      hlookup p.heap p.head = some hd ∧ hd.next = some s ∧
      hlookup p.heap s = some sn ∧ sn.task = t ∧
      up_pool_deq p true true = some (.ok p' t) ∧
      p'.deq_count = p.deq_count + 1 ∧ p'.enq_count = p.enq_count ∧
      p'.head = s ∧ p'.tail = p.tail ∧
      hlookup p'.heap p.head = none ∧
      (∃ n', hlookup p'.heap s = some n' ∧ n'.task = zeroTask) ∧
      PoolAbs p' q := by
  obtain ⟨addrs, hinv, hperm, htasks⟩ := h
  have hinv0 := hinv
  obtain ⟨hc, hlast, hnd, hfresh, hknd, n0, hl0, hz0⟩ := hinv
  obtain ⟨rest, rfl⟩ := chain_head hc
  cases hc with
  | last _ n hln hnn =>
    simp [tasks_of] at htasks
  | cons _ b n l hln hnn hcl =>
    obtain ⟨rest', rfl⟩ := chain_head hcl
    obtain ⟨sn, hsn⟩ :=
      mem_hlookup (chain_sub_keys hcl b (List.mem_cons_self _ _))
    have htasks' : sn.task = t ∧ tasks_of p.heap rest' = q := by
      have : tasks_of p.heap (b :: rest')
          = sn.task :: tasks_of p.heap rest' := by
        simp [tasks_of, List.filterMap_cons, hsn]
      rw [show ((p.head :: b :: rest').tail = b :: rest') from rfl, this]
        at htasks
      exact ⟨(List.cons.injEq _ _ _ _ ▸ htasks).1,
        (List.cons.injEq _ _ _ _ ▸ htasks).2⟩
    obtain ⟨l', heq, hinv2, hinv3⟩ := chaininv_deq_adv hinv0 hln hnn
    have hl'eq : l' = b :: rest' := (List.cons.injEq _ _ _ _ ▸ heq).2.symm
    subst hl'eq
    have he := deq_eval_ok hln hnn hsn
    rw [htasks'.1] at he
    have hhd_notin : p.head ∉ b :: rest' := (List.nodup_cons.mp hnd).1
    have hb_ne_hd : b ≠ p.head :=
      fun hbe => hhd_notin (hbe ▸ List.mem_cons_self b rest')
    have hknd2 : (hkeys (hsetTask p.heap b zeroTask)).Nodup := by
      rw [hkeys_hsetTask]; exact hknd
    refine ⟨n, sn, b, _, hln, hnn, hsn, htasks'.1, he, rfl, rfl, rfl, rfl,
      ?_, ?_, ?_⟩
    · exact hlookup_hremove_self hknd2 p.head
    · exact hinv3.2.2.2.2.2
    · refine ⟨b :: rest', hinv3, ?_, ?_⟩
      · show (hkeys (hremove (hsetTask p.heap b zeroTask) p.head)).Perm _
        rw [hkeys_hremove, hkeys_hsetTask]
        have := hperm.erase p.head
        rwa [List.erase_cons_head] at this
      · show tasks_of (hremove (hsetTask p.heap b zeroTask) p.head)
            (b :: rest').tail = q
        rw [show ((b :: rest').tail = rest') from rfl]
        rw [← htasks'.2]
        refine tasks_of_congr fun x hx => ?_
        have hx_ne_hd : x ≠ p.head :=
          fun he2 => hhd_notin (he2 ▸ List.mem_cons_of_mem _ hx)
        have hx_ne_b : x ≠ b :=
          fun he2 => (List.nodup_cons.mp (List.nodup_cons.mp hnd).2).1
            (he2 ▸ hx)
        rw [hlookup_hremove_ne hx_ne_hd, hlookup_hsetTask_ne hx_ne_b]

/-- Every branch of `up_pool_enq` preserves the structural invariant. -/
theorem inv_enq {p : up_pool} (hinv : Inv p) {t : up_task}
    {aO lO uO : Bool} {r : EnqResult}
    (h : up_pool_enq p t aO lO uO = some r) : Inv r.pool := by
  obtain ⟨addrs, hinv0⟩ := hinv
  cases aO with
  | false =>
    have h0 : up_pool_enq p t false lO uO
        = some ⟨UP_ERROR_MALLOC, p, false⟩ := by simp [up_pool_enq]
    rw [h0] at h
    injection h with h2
    subst h2
    exact ⟨addrs, hinv0⟩
  | true =>
    cases lO with
    | false =>
      have h0 : up_pool_enq p t true false uO
          = some ⟨UP_ERROR_MUTEX_LOCK, p, false⟩ := by simp [up_pool_enq]
      rw [h0] at h
      injection h with h2
      subst h2
      exact ⟨addrs, hinv0⟩
    | true =>
      have htl_mem : p.tail ∈ addrs := mem_of_getLast_opt hinv0.2.1
      obtain ⟨tn, htn⟩ :=
        mem_hlookup (chain_sub_keys hinv0.1 _ htl_mem)
      rw [enq_eval htn t uO] at h
      injection h with h2
      subst h2
      exact ⟨addrs ++ [p.nextAddr], chaininv_enq_link hinv0 t⟩

/-- Every branch of `up_pool_deq` preserves the structural invariant. -/
theorem inv_deq {p : up_pool} (hinv : Inv p) {lO uO : Bool}
    {d : DeqOutcome} (h : up_pool_deq p lO uO = some d) :
    Inv d.pool := by
  obtain ⟨addrs, hinv0⟩ := hinv
  cases lO with
  | false =>
    have h0 : up_pool_deq p false uO
        = some (.failed UP_ERROR_MUTEX_LOCK p) := by simp [up_pool_deq]
    rw [h0] at h
    injection h with h2
    subst h2
    exact ⟨addrs, hinv0⟩
  | true =>
    obtain ⟨n0, hl0, hz0⟩ := hinv0.2.2.2.2.2
    cases hnx : n0.next with
    | none =>
      have : up_pool_deq p true uO
          = some (.blocked { p with deq_count := p.deq_count + 1 }) := by
        simp [up_pool_deq, hl0, hnx]
      rw [this] at h
      injection h with h2
      subst h2
      exact ⟨addrs, hinv0⟩
    | some s =>
      obtain ⟨l', hleq, hinv2, hinv3⟩ := chaininv_deq_adv hinv0 hl0 hnx
      obtain ⟨sn, hsn⟩ : ∃ sn, hlookup p.heap s = some sn := by
        obtain ⟨lx, hlx, hcx⟩ := chain_step hinv0.1 hl0 hnx
        obtain ⟨ly, rfl⟩ := chain_head hcx
        exact mem_hlookup (chain_sub_keys hcx s (List.mem_cons_self _ _))
      cases uO with
      | false =>
        have : up_pool_deq p true false
            = some (.failed UP_ERROR_MUTEX_LOCK
                { p with
                  deq_count := p.deq_count + 1
                  head := s
                  heap := hsetTask p.heap s zeroTask }) := by
          simp [up_pool_deq, hl0, hnx, hsn]
        rw [this] at h
        injection h with h2
        subst h2
        exact ⟨l', hinv2⟩
      | true =>
        rw [deq_eval_ok hl0 hnx hsn] at h
        injection h with h2
        subst h2
        exact ⟨l', hinv3⟩

/-! ### Derived facts used by several claims -/

theorem poolabs_inv {p : up_pool} {q : List up_task}
    (h : PoolAbs p q) : Inv p := by
  obtain ⟨addrs, hinv, _, _⟩ := h
  exact ⟨addrs, hinv⟩

/-- The freshly created pool abstracts to the empty queue. -/
theorem initPool_abs (n : Nat) : PoolAbs (initPool n) [] := by
  refine ⟨[0], ⟨?_, rfl, ?_, ?_, ?_, ?_⟩, ?_, rfl⟩
  · exact Chain.last 0 ⟨zeroTask, none⟩ rfl rfl
  · simp
  · intro a ha
    simp only [initPool, hkeys_cons, hkeys_nil] at ha
    rcases List.mem_cons.mp ha with rfl | ha
    · exact Nat.lt_succ_self 0
    · simp at ha
  · simp [initPool]
  · exact ⟨⟨zeroTask, none⟩, rfl, rfl⟩
  · exact List.Perm.refl _

theorem spin_until_mem {t : Nat} : ∀ {l : List Nat},
    spin_until t l = true → t ∈ l := by
  intro l
  induction l with
  | nil => intro h; simp [spin_until] at h
  | cons d rest ih =>
    intro h
    by_cases htd : t = d
    · exact htd ▸ List.mem_cons_self _ _
    · simp only [spin_until, if_neg htd] at h
      exact List.mem_cons_of_mem _ (ih h)

/-- Inversion of a successful `up_pool_create`. -/
theorem create_inr {n : Nat} {a b c d : Bool} {obs : List Nat}
    {p : up_pool}
    (h : up_pool_create n a b c d obs = some (Sum.inr p)) :
    ¬ n < 1 ∧ spin_until n obs = true ∧ p = initPool n := by
  by_cases h1 : n < 1
  · simp [up_pool_create, h1] at h
  · cases a with
    | false => simp [up_pool_create, h1] at h
    | true =>
      cases b with
      | false => simp [up_pool_create, h1] at h
      | true =>
        cases c with
        | false => simp [up_pool_create, h1] at h
        | true =>
          cases d with
          | false => simp [up_pool_create, h1] at h
          | true =>
            cases hs : spin_until n obs with
            | false => simp [up_pool_create, h1, hs] at h
            | true =>
              simp only [up_pool_create, if_neg h1, hs] at h
              simp at h
              exact ⟨h1, rfl, h.symm⟩

/-- A chain of length ≤ fuel is walked completely by `chain_walk`. -/
theorem chain_walk_eq {h : Heap} : ∀ {a : Nat} {l : List Nat},
    Chain h a l → ∀ {fuel : Nat}, l.length ≤ fuel →
      chain_walk h (some a) fuel = some l := by
  intro a l hc
  induction hc with
  | last a n hl hn =>
    intro fuel hf
    cases fuel with
    | zero => simp at hf
    | succ k =>
      simp only [chain_walk, hl, hn]
      rfl
  | cons a b n l hl hn hcl ih =>
    intro fuel hf
    cases fuel with
    | zero => simp at hf
    | succ k =>
      simp only [chain_walk, hl, hn]
      rw [ih (by simpa using Nat.succ_le_succ_iff.mp hf)]
      rfl

/-- Run a sequence of `up_pool_enq` calls (all oracles succeeding). -/
def runEnqs : up_pool → List up_task → Option up_pool
  | p, [] => some p
  | p, t :: ts =>
    match up_pool_enq p t true true true with
    | some r => runEnqs r.pool ts
    | none => none

/-- Run `k` successful `up_pool_deq` calls, collecting the dequeued tasks
in order. -/
def runDeqs : up_pool → Nat → Option (up_pool × List up_task)
  | p, 0 => some (p, [])
  | p, k + 1 =>
    match up_pool_deq p true true with
    | some (.ok p' t) =>
      match runDeqs p' k with
      | some (p'', ts) => some (p'', t :: ts)
      | _ => none
    | _ => none

theorem runEnqs_abs {p : up_pool} {q : List up_task} (h : PoolAbs p q) :
    ∀ ts : List up_task, ∃ p', runEnqs p ts = some p' ∧
      PoolAbs p' (q ++ ts) := by
  intro ts
  induction ts generalizing p q with
  | nil => exact ⟨p, rfl, by simpa using h⟩
  | cons t ts ih =>
    obtain ⟨p1, he, habs⟩ := enq_ok_abs h t
    obtain ⟨p', hrun, habs'⟩ := ih habs
    refine ⟨p', ?_, by simpa using habs'⟩
    show runEnqs p (t :: ts) = some p'
    unfold runEnqs
    rw [he]
    exact hrun

theorem runDeqs_abs {p : up_pool} {q : List up_task} (h : PoolAbs p q) :
    ∃ p', runDeqs p q.length = some (p', q) ∧ PoolAbs p' [] := by
  induction q generalizing p with
  | nil => exact ⟨p, rfl, h⟩
  | cons t q ih =>
    obtain ⟨hd, sn, s, p1, _, _, _, _, he, _, _, _, _, _, _, habs⟩ :=
      deq_ok_abs h
    obtain ⟨p', hrun, habs'⟩ := ih habs
    refine ⟨p', ?_, habs'⟩
    show runDeqs p (q.length + 1) = some (p', t :: q)
    simp only [runDeqs, he, hrun]

/-! ### Concrete pool used by several witnesses -/

/-- A 1-worker pool with one pending task ⟨5, 7⟩: zeroed sentinel at
address 0, task node at address 1. -/
def cpoolA : up_pool :=
  { thread_count := 1, enq_count := 1, deq_count := 0
    heap := [(1, ⟨⟨5, 7⟩, none⟩), (0, ⟨zeroTask, some 1⟩)]
    head := 0, tail := 1, nextAddr := 2 }

theorem cpoolA_abs : PoolAbs cpoolA [⟨5, 7⟩] := by
  refine ⟨[0, 1],
    ⟨?_, rfl, by decide, by decide, by decide, ?_⟩, by decide, rfl⟩
  · exact Chain.cons 0 1 ⟨zeroTask, some 1⟩ [1] rfl rfl
      (Chain.last 1 ⟨⟨5, 7⟩, none⟩ rfl rfl)
  · exact ⟨⟨zeroTask, some 1⟩, rfl, rfl⟩

/-! ### The claims -/

/-- C1: tasks are consumed in FIFO append order.  From any pool state
whose abstract queue is empty, after appending the tasks `ts` (in order)
and then performing `ts.length` consumes, the i-th consume returns
exactly the i-th appended task: the dequeued list is `ts` itself, no
task lost or duplicated. -/
theorem c1_fifo_append_order (p0 : up_pool) (h0 : PoolAbs p0 [])
    (ts : List up_task) :
    ∃ p1 p2, runEnqs p0 ts = some p1 ∧
      runDeqs p1 ts.length = some (p2, ts) := by
  obtain ⟨p1, h1, habs1⟩ := runEnqs_abs h0 ts
  obtain ⟨p2, h2, -⟩ := runDeqs_abs (show PoolAbs p1 ts by simpa using habs1)
  exact ⟨p1, p2, h1, h2⟩

/-- Witness for C1 on a freshly created pool and three tasks. -/
theorem c1_fifo_append_order_witness :
    PoolAbs (initPool 4) [] ∧
    ∃ p1 p2, runEnqs (initPool 4) [⟨1, 2⟩, ⟨3, 4⟩, ⟨5, 6⟩] = some p1 ∧
      runDeqs p1 3 = some (p2, [⟨1, 2⟩, ⟨3, 4⟩, ⟨5, 6⟩]) :=
  ⟨initPool_abs 4, c1_fifo_append_order (initPool 4) (initPool_abs 4) _⟩

/-- C2: on a pool whose queue chain has a node after `head`, `consume`
increments `deq_count` by exactly one, advances `head` to its successor,
returns that successor's task with success, zeroes the task fields of
the node `head` now points at, and frees the former head node. -/
theorem c2_consume_step (p : up_pool) (t : up_task) (q : List up_task)
    (h : PoolAbs p (t :: q)) :
    ∃ (hd sn : up_node) (s : Nat) (p' : up_pool),
      hlookup p.heap p.head = some hd ∧ hd.next = some s ∧
      hlookup p.heap s = some sn ∧ sn.task = t ∧
      up_pool_deq p true true = some (.ok p' t) ∧
      p'.deq_count = p.deq_count + 1 ∧
      p'.head = s ∧
      (∃ n', hlookup p'.heap p'.head = some n' ∧ n'.task = zeroTask) ∧
      hlookup p'.heap p.head = none := by
  obtain ⟨hd, sn, s, p', h1, h2, h3, h4, h5, h6, h7, h8, h9, h10, h11, h12⟩ :=
    deq_ok_abs h
  exact ⟨hd, sn, s, p', h1, h2, h3, h4, h5, h6, h8,
    by rw [h8]; exact h11, h10⟩

/-- Witness for C2 on a concrete one-task pool. -/
theorem c2_consume_step_witness :
    PoolAbs cpoolA [(⟨5, 7⟩ : up_task)] ∧
    (∃ (hd sn : up_node) (s : Nat) (p' : up_pool),
      hlookup cpoolA.heap cpoolA.head = some hd ∧ hd.next = some s ∧
      hlookup cpoolA.heap s = some sn ∧ sn.task = ⟨5, 7⟩ ∧
      up_pool_deq cpoolA true true = some (.ok p' ⟨5, 7⟩) ∧
      p'.deq_count = cpoolA.deq_count + 1 ∧
      p'.head = s ∧
      (∃ n', hlookup p'.heap p'.head = some n' ∧ n'.task = zeroTask) ∧
      hlookup p'.heap cpoolA.head = none) :=
  ⟨cpoolA_abs, c2_consume_step cpoolA ⟨5, 7⟩ [] cpoolA_abs⟩

/-- C3: append/submit failure is atomic.  If the node allocation fails
(`UP_ERROR_MALLOC`) or the append lock cannot be acquired
(`UP_ERROR_MUTEX_LOCK`), the returned pool state is exactly the input
state — same chain, same tail, same `enq_count` — and no signal is
sent; the same holds through `up_pool_submit`. -/
theorem c3_append_failure_atomic (p : up_pool) (t : up_task)
    (rt ag : Nat) (lO uO : Bool) :
    up_pool_enq p t false lO uO = some ⟨UP_ERROR_MALLOC, p, false⟩ ∧
    up_pool_enq p t true false uO = some ⟨UP_ERROR_MUTEX_LOCK, p, false⟩ ∧
    up_pool_submit p rt ag false lO uO = some ⟨UP_ERROR_MALLOC, p, false⟩ ∧
    up_pool_submit p rt ag true false uO
      = some ⟨UP_ERROR_MUTEX_LOCK, p, false⟩ := by
  refine ⟨?_, ?_, ?_, ?_⟩ <;> simp [up_pool_enq, up_pool_submit]

/-- C4: the structural queue invariant — the chain from `head` is a
non-empty non-cyclic singly-linked list ending at `tail`
(`tail->next == NULL`), and the node `head` points at has zeroed task
fields — is established by `create` and preserved by every `append` and
`consume`. -/
theorem c4_invariant_preserved :
    (∀ (n : Nat) (a b c d : Bool) (obs : List Nat) (p : up_pool),
      up_pool_create n a b c d obs = some (Sum.inr p) → Inv p) ∧
    (∀ (p : up_pool) (t : up_task) (aO lO uO : Bool) (r : EnqResult),
      Inv p → up_pool_enq p t aO lO uO = some r → Inv r.pool) ∧
    (∀ (p : up_pool) (lO uO : Bool) (d : DeqOutcome),
      Inv p → up_pool_deq p lO uO = some d → Inv d.pool) := by
  refine ⟨?_, ?_, ?_⟩
  · intro n a b c d obs p h
    obtain ⟨-, -, rfl⟩ := create_inr h
    exact poolabs_inv (initPool_abs n)
  · intro p t aO lO uO r hinv h
    exact inv_enq hinv h
  · intro p lO uO d hinv h
    exact inv_deq hinv h

/-- Witness for C4: the invariant concretely after create, one append
and one consume. -/
theorem c4_invariant_preserved_witness :
    up_pool_create 1 true true true true [1] = some (Sum.inr (initPool 1)) ∧
    Inv (initPool 1) ∧
    (∃ r, up_pool_enq (initPool 1) ⟨1, 2⟩ true true true = some r ∧
      Inv r.pool) ∧
    (∃ d, up_pool_deq cpoolA true true = some d ∧ Inv d.pool) := by
  have hc : up_pool_create 1 true true true true [1]
      = some (Sum.inr (initPool 1)) := by decide
  have h1 : Inv (initPool 1) :=
    c4_invariant_preserved.1 1 true true true true [1] _ hc
  refine ⟨hc, h1, ?_, ?_⟩
  · cases he : up_pool_enq (initPool 1) ⟨1, 2⟩ true true true with
    | none => exact absurd he (by decide)
    | some r => exact ⟨r, rfl, c4_invariant_preserved.2.1 _ _ _ _ _ _ h1 he⟩
  · have h2 : Inv cpoolA := poolabs_inv cpoolA_abs
    cases hd : up_pool_deq cpoolA true true with
    | none => exact absurd hd (by decide)
    | some d => exact ⟨d, rfl, c4_invariant_preserved.2.2 _ _ _ _ h2 hd⟩

/-- C5 (spec-modelled `up_pool_wait`/`up_pool_release`): a successful
`wait` only returns after observing `threadCount + submitted = consumed`
under the consume lock — i.e. every task submitted in the cycle has been
consumed — then resets `submitted` to 0 and `consumed` to `threadCount`,
returning with both locks held; `release` unlocks both locks and leaves
the pool alone. -/
theorem c5_wait_release (p : up_pool) (obs : List Nat) (r : WaitResult)
    (h : up_pool_wait p obs = some r) :
    (p.thread_count + p.enq_count) ∈ obs ∧
    r.pool.enq_count = 0 ∧
    r.pool.deq_count = p.thread_count ∧
    r.enqLockHeld = true ∧ r.deqLockHeld = true ∧
    (up_pool_release r).enqLockHeld = false ∧
    (up_pool_release r).deqLockHeld = false ∧
    (up_pool_release r).pool = r.pool := by
  unfold up_pool_wait at h
  by_cases hs : spin_until (p.thread_count + p.enq_count) obs = true
  · rw [if_pos hs] at h
    injection h with h2
    subst h2
    exact ⟨spin_until_mem hs, rfl, rfl, rfl, rfl, rfl, rfl, rfl⟩
  · rw [if_neg hs] at h
    simp at h

/-- Witness for C5 on a 3-worker pool whose spin observes the counters
match on the second read. -/
theorem c5_wait_release_witness :
    ∃ r, up_pool_wait (initPool 3) [0, 3] = some r ∧
      ((initPool 3).thread_count + (initPool 3).enq_count ∈ [0, 3] ∧
       r.pool.enq_count = 0 ∧
       r.pool.deq_count = (initPool 3).thread_count ∧
       r.enqLockHeld = true ∧ r.deqLockHeld = true ∧
       (up_pool_release r).enqLockHeld = false ∧
       (up_pool_release r).deqLockHeld = false ∧
       (up_pool_release r).pool = r.pool) := by
  cases hw : up_pool_wait (initPool 3) [0, 3] with
  | none => exact absurd hw (by decide)
  | some r => exact ⟨r, rfl, c5_wait_release _ _ r hw⟩

/-- C6: `create` fails with `UP_ERROR_CONF_INVAL` whenever the requested
thread count is below 1; on the success path it returns only after the
consume counter was observed to reach `threadCount`, and both counters
are zero in the returned pool. -/
theorem c6_create_barrier (n : Nat) (a b c d : Bool) (obs : List Nat) :
    (n < 1 →
      up_pool_create n a b c d obs = some (Sum.inl UP_ERROR_CONF_INVAL)) ∧
    (∀ p, up_pool_create n a b c d obs = some (Sum.inr p) →
      1 ≤ n ∧ n ∈ obs ∧ p.thread_count = n ∧
      p.enq_count = 0 ∧ p.deq_count = 0) := by
  constructor
  · intro hn
    simp [up_pool_create, hn]
  · intro p h
    obtain ⟨hn, hs, rfl⟩ := create_inr h
    exact ⟨Nat.not_lt.mp hn, spin_until_mem hs, rfl, rfl, rfl⟩

/-- Witness for C6: rejection at 0 threads; success at 2 threads after
the counter is observed at 2. -/
theorem c6_create_barrier_witness :
    up_pool_create 0 true true true true []
      = some (Sum.inl UP_ERROR_CONF_INVAL) ∧
    (1 ≤ 2 ∧ 2 ∈ [1, 2] ∧ (initPool 2).thread_count = 2 ∧
      (initPool 2).enq_count = 0 ∧ (initPool 2).deq_count = 0) :=
  ⟨(c6_create_barrier 0 true true true true []).1 (by decide),
   (c6_create_barrier 2 true true true true [1, 2]).2 (initPool 2)
     (by decide)⟩

/-- C7: if any worker join fails, `destroy` returns
`UP_ERROR_THREAD_JOIN` having released nothing; on the success path it
frees the handle array, destroys the condition variable and both locks,
frees every node remaining in the chain (sentinel and unconsumed task
nodes — exactly the allocated addresses), and frees the pool. -/
theorem c7_destroy_release (p : up_pool) (q : List up_task)
    (h : PoolAbs p q) (joinOks : Nat → Bool) (condOk enqOk deqOk : Bool) :
    ((∃ i, i < p.thread_count ∧ joinOks i = false) →
      up_pool_destroy p joinOks condOk enqOk deqOk
        = some ⟨UP_ERROR_THREAD_JOIN, false, false, false, false, [],
            false⟩) ∧
    ((∀ i, i < p.thread_count → joinOks i = true) →
      ∃ addrs, up_pool_destroy p joinOks true true true
          = some ⟨UP_SUCCESS, true, true, true, true, addrs, true⟩ ∧
        addrs.Perm (hkeys p.heap)) := by
  constructor
  · intro ⟨i, hi, hf⟩
    have hall : (List.range p.thread_count).all joinOks = false := by
      cases hA : (List.range p.thread_count).all joinOks with
      | false => rfl
      | true =>
        have := List.all_eq_true.mp hA _ (List.mem_range.mpr hi)
        rw [hf] at this
        exact absurd this (by decide)
    simp [up_pool_destroy, hall]
  · intro hall
    obtain ⟨addrs, hinv, hperm, -⟩ := h
    have hA : (List.range p.thread_count).all joinOks = true :=
      List.all_eq_true.mpr fun i hi => hall i (List.mem_range.mp hi)
    have hlen : addrs.length ≤ p.heap.length + 1 := by
      calc addrs.length = (hkeys p.heap).length := hperm.length_eq.symm
        _ = p.heap.length := by simp [hkeys]
        _ ≤ p.heap.length + 1 := Nat.le_succ _
    have hwalk := chain_walk_eq hinv.1 hlen
    refine ⟨addrs, ?_, hperm.symm⟩
    simp [up_pool_destroy, hA, hwalk]

/-- Witness for C7 on the concrete one-task pool, with an injected join
failure and with all joins succeeding. -/
theorem c7_destroy_release_witness :
    PoolAbs cpoolA [(⟨5, 7⟩ : up_task)] ∧
    up_pool_destroy cpoolA (fun _ => false) true true true
      = some ⟨UP_ERROR_THREAD_JOIN, false, false, false, false, [],
          false⟩ ∧
    (∃ addrs, up_pool_destroy cpoolA (fun _ => true) true true true
        = some ⟨UP_SUCCESS, true, true, true, true, addrs, true⟩ ∧
      addrs.Perm (hkeys cpoolA.heap)) :=
  ⟨cpoolA_abs,
   (c7_destroy_release cpoolA _ cpoolA_abs (fun _ => false)
      true true true).1 ⟨0, by decide, rfl⟩,
   (c7_destroy_release cpoolA _ cpoolA_abs (fun _ => true)
      true true true).2 (fun _ _ => rfl)⟩

/-- On traces without a failed disable call, every reachable executing
state has cancellation disabled. -/
theorem wreach_ndf_atrun_disabled :
    ∀ w : WorkerState, wreach_no_disable_fail workerInit w →
      ∀ t, w.pc = .atRun t → w.cancelEnabled = false := by
  intro w hw
  have hw' : Relation.ReflTransGen
      (fun s s' => ∃ e, wstep s e s' ∧ ∀ t, e ≠ WEv.deqOkDisableFail t)
      workerInit w := hw
  induction hw' with
  | refl =>
    intro t ht
    simp [workerInit] at ht
  | tail hab hbc ih =>
    obtain ⟨e, hst, hne⟩ := hbc
    intro t ht
    cases hst with
    | deq_ok c0 t0 => rfl
    | deq_ok_disable_fail c0 t0 => exact absurd rfl (hne t0)
    | deq_fail c0 => simp at ht
    | run_done c0 t0 => simp at ht
    | run_enable_fail c0 t0 => simp at ht
    | cancel_at_wait => simp at ht
    | cancel_in_run t0 => simp at ht

/-- Counterexample to C8 as stated: when the
`pthread_setcancelstate(PTHREAD_CANCEL_DISABLE)` call fails, the code
(upool.c:185–188) only logs the failure and invokes the task routine
with cancellation still enabled, so the worker reaches an executing
state with cancellation enabled, and a cancellation request can take
effect there — in a state that is not the blocked wait inside
`consume`. -/
theorem c8_run_to_completion_cex :
    wreach workerInit ⟨.atRun ⟨1, 2⟩, true⟩ ∧
    (⟨.atRun ⟨1, 2⟩, true⟩ : WorkerState).cancelEnabled = true ∧
    wstep ⟨.atRun ⟨1, 2⟩, true⟩ .cancel ⟨.stopped, true⟩ ∧
    (⟨.atRun ⟨1, 2⟩, true⟩ : WorkerState).pc ≠ .atDeq := by
  refine ⟨?_, rfl, wstep.cancel_in_run ⟨1, 2⟩, by decide⟩
  exact Relation.ReflTransGen.single
    ⟨.deqOkDisableFail ⟨1, 2⟩, wstep.deq_ok_disable_fail true ⟨1, 2⟩⟩

/-- C8 (amended): run-to-completion holds on every trace along which
the `pthread_setcancelstate(PTHREAD_CANCEL_DISABLE)` calls succeed:
there every reachable executing state has cancellation disabled (it was
disabled before the routine was invoked and re-enabled only after it
returned), so the only state in which a worker can observe an external
cancellation request is while blocked waiting inside `consume`.  If a
disable call fails, the code only logs it and the guarantee is lost
(see the counterexample). -/
theorem c8_run_to_completion :
    (∀ w : WorkerState, wreach_no_disable_fail workerInit w →
      ∀ t, w.pc = .atRun t → w.cancelEnabled = false) ∧
    (∀ s : WorkerState, wreach_no_disable_fail workerInit s →
      ∀ s' : WorkerState, wstep s .cancel s' →
        s.pc = .atDeq ∧ s.cancelEnabled = true) := by
  refine ⟨wreach_ndf_atrun_disabled, ?_⟩
  intro s hs s' hst
  cases hst with
  | cancel_at_wait => exact ⟨rfl, rfl⟩
  | cancel_in_run t =>
    have hd := wreach_ndf_atrun_disabled _ hs t rfl
    simp at hd

/-- Witness for C8 (amended): a concrete executing state reached without
disable failures has cancellation disabled, and the concrete cancel step
from the initial state is at the blocked wait with cancellation
enabled. -/
theorem c8_run_to_completion_witness :
    wreach_no_disable_fail workerInit ⟨.atRun ⟨1, 2⟩, false⟩ ∧
    (⟨.atRun ⟨1, 2⟩, false⟩ : WorkerState).cancelEnabled = false ∧
    wreach_no_disable_fail workerInit workerInit ∧
    wstep workerInit .cancel ⟨.stopped, true⟩ ∧
    workerInit.pc = .atDeq ∧ workerInit.cancelEnabled = true := by
  have hr : wreach_no_disable_fail workerInit ⟨.atRun ⟨1, 2⟩, false⟩ :=
    Relation.ReflTransGen.single
      ⟨.deqOk ⟨1, 2⟩, wstep.deq_ok true ⟨1, 2⟩, fun t h => by cases h⟩
  have hr0 : wreach_no_disable_fail workerInit workerInit :=
    Relation.ReflTransGen.refl
  have hc := c8_run_to_completion.2 workerInit hr0 _ wstep.cancel_at_wait
  exact ⟨hr, c8_run_to_completion.1 _ hr ⟨1, 2⟩ rfl, hr0,
    wstep.cancel_at_wait, hc.1, hc.2⟩

/-- C9: `up_pool_queue_size` writes `enq_count - deq_count` through the
out-parameter while both locks are held, releases both locks before
returning, and leaves the pool (counters and queue) unchanged. -/
theorem c9_pending_count (p : up_pool)
    (h1 : p.deq_count ≤ p.enq_count) (h2 : p.enq_count < SIZE_MOD) :
    up_pool_queue_size p true true true true
      = ⟨UP_SUCCESS, p, some (p.enq_count - p.deq_count),
         some (true, true), false, false⟩ := by
  have hM : SIZE_MOD = 18446744073709551616 := by norm_num [SIZE_MOD]
  have hs : size_sub p.enq_count p.deq_count
      = p.enq_count - p.deq_count := by
    rw [hM] at h2
    unfold size_sub
    rw [hM]
    omega
  simp [up_pool_queue_size, hs]

/-- Witness for C9 on the concrete pool with one pending task. -/
theorem c9_pending_count_witness :
    cpoolA.deq_count ≤ cpoolA.enq_count ∧ cpoolA.enq_count < SIZE_MOD ∧
    up_pool_queue_size cpoolA true true true true
      = ⟨UP_SUCCESS, cpoolA, some (cpoolA.enq_count - cpoolA.deq_count),
         some (true, true), false, false⟩ :=
  ⟨by decide, by decide, c9_pending_count cpoolA (by decide) (by decide)⟩

/-- C10: if the append-lock release fails after the node was linked,
`up_pool_enq` returns the same `UP_ERROR_MUTEX_LOCK` code as a
lock-acquire failure even though the node is linked after the old tail,
`tail` advanced and `enq_count` incremented, and the condition variable
is never signaled on that path — so a `LockError` from append does not
imply the task was not queued. -/
theorem c10_enq_unlock_failure (p : up_pool) (hinv : Inv p)
    (t : up_task) :
    ∃ p', up_pool_enq p t true true false
        = some ⟨UP_ERROR_MUTEX_LOCK, p', false⟩ ∧
      up_pool_enq p t true false false
        = some ⟨UP_ERROR_MUTEX_LOCK, p, false⟩ ∧
      p'.enq_count = p.enq_count + 1 ∧
      p'.tail = p.nextAddr ∧
      hlookup p'.heap p.nextAddr = some ⟨t, none⟩ ∧
      (hlookup p'.heap p.tail).map up_node.next
        = some (some p.nextAddr) := by
  obtain ⟨addrs, hinv0⟩ := hinv
  have htl_mem : p.tail ∈ addrs := mem_of_getLast_opt hinv0.2.1
  have htl_keys := chain_sub_keys hinv0.1 _ htl_mem
  obtain ⟨tn, htn⟩ := mem_hlookup htl_keys
  have hw : p.nextAddr ∉ hkeys p.heap :=
    fun hm => lt_irrefl _ (hinv0.2.2.2.1 _ hm)
  have htw : p.tail ≠ p.nextAddr := fun he => hw (he ▸ htl_keys)
  have he := enq_eval htn t false
  simp only [Bool.false_eq_true, if_false] at he
  refine ⟨_, he, ?_, rfl, rfl, ?_, ?_⟩
  · simp [up_pool_enq]
  · simp [hlookup]
  · show (hlookup ((p.nextAddr, (⟨t, none⟩ : up_node))
        :: hsetNext p.heap p.tail (some p.nextAddr)) p.tail).map
          up_node.next = some (some p.nextAddr)
    simp only [hlookup, if_neg htw]
    rw [hlookup_hsetNext_self htn]
    rfl

/-- Witness for C10 on the concrete pool. -/
theorem c10_enq_unlock_failure_witness :
    Inv cpoolA ∧
    (∃ p', up_pool_enq cpoolA ⟨9, 9⟩ true true false
        = some ⟨UP_ERROR_MUTEX_LOCK, p', false⟩ ∧
      up_pool_enq cpoolA ⟨9, 9⟩ true false false
        = some ⟨UP_ERROR_MUTEX_LOCK, cpoolA, false⟩ ∧
      p'.enq_count = cpoolA.enq_count + 1 ∧
      p'.tail = cpoolA.nextAddr ∧
      hlookup p'.heap cpoolA.nextAddr = some ⟨⟨9, 9⟩, none⟩ ∧
      (hlookup p'.heap cpoolA.tail).map up_node.next
        = some (some cpoolA.nextAddr)) :=
  ⟨poolabs_inv cpoolA_abs,
   c10_enq_unlock_failure cpoolA (poolabs_inv cpoolA_abs) ⟨9, 9⟩⟩

end UPool
